import Mathlib

/-!
Verification of the rule-learning and rule-selection engine of the
Personal AI OS backend (`backend/app/core/algorithms.py`,
`backend/app/core/extraction.py`, `backend/app/jobs/decay_processor.py`).

Python floats are modelled as exact rationals (`ℚ`); the only genuinely
irrational quantity, the Euclidean norm inside `cosine_similarity`, is
modelled in `ℝ` via `Real.sqrt`.  Timestamps are modelled by the integer
number of days elapsed (`(utcnow() - t).days`), `None`-able values by
`Option`, and Python truthiness of lists/embeddings by an explicit
`vecTruthy` test (a `None` or empty embedding is falsy).  Fallible
external service calls (LLM extraction, embedding generation) are
modelled by `Option`-valued inputs: `none` is a failed call.
-/

/-! ## Configuration (`backend/app/config.py`, Rule Engine block) -/

/-- Setting `CONFIDENCE_THRESHOLD`, default `0.3`. -/
def confidence_threshold : ℚ := 3/10

/-- Setting `DECAY_RATE`, default `0.05`. -/
def decay_rate : ℚ := 1/20

/-- Setting `ARCHIVE_THRESHOLD`, default `0.2`. -/
def archive_threshold : ℚ := 1/5

/-- Setting `SIMILARITY_THRESHOLD`, default `0.85`. -/
def similarity_threshold : ℚ := 17/20

/-! ## Data model -/

/-- Rule status enumeration (`app/models/rule.py`). -/
inductive RuleStatus where
  | active
  | archived
  | disabled
deriving DecidableEq

/-- A rule record, with the fields the core algorithms read.
`days_since_applied` models `(datetime.utcnow() - last_applied_at).days`
(`none` when `last_applied_at` is `None`); `applied_within_24h` models
`(now - last_applied_at) < timedelta(hours=24)` (false when absent). -/
structure Rule where
  id : ℕ
  user_id : ℕ
  content : String
  confidence : ℚ
  times_reinforced : ℕ
  days_since_applied : Option ℤ
  applied_within_24h : Bool
  embedding : Option (List ℚ)
  last_reinforced_at : Option String
  status : RuleStatus
deriving DecidableEq

/-- Python truthiness of an optional embedding vector: `None` and the
empty list are falsy, a non-empty list is truthy. -/
def vecTruthy : Option (List ℚ) → Bool
  | none => false
  | some v => !v.isEmpty

/-! ## Scoring primitives (`app/core/algorithms.py`) -/

/-- Function `calculate_confidence` (algorithms.py lines 16-51).  The second
timestamp argument `last_reinforced_at` is accepted and ignored, exactly
as in the source. -/
def calculate_confidence (base_confidence : ℚ) (times_reinforced : ℕ)
    (days_since_applied : Option ℤ) (_last_reinforced : Option ℤ) : ℚ :=
  let reinforcement_bonus : ℚ := min ((times_reinforced : ℚ) * (1/10)) (9/20)
  let decay_penalty : ℚ :=
    match days_since_applied with
    | none => 0
    | some days_since_use =>
        let weeks_unused : ℤ := days_since_use.fdiv 7
        min ((weeks_unused : ℚ) * decay_rate) (2/5)
  let confidence := base_confidence + reinforcement_bonus - decay_penalty
  max (1/10) (min (19/20) confidence)

/-- Function `should_archive_rule` (algorithms.py lines 82-92). -/
def should_archive_rule (confidence : ℚ) : Bool :=
  confidence < archive_threshold

/-- Modelled from the spec sentence of claim C1 (the decay-penalty
clause), to be compared with the source function: `decay_penalty =
min(floor(days_since(last_applied_at)/7) * decay_rate, 0.4)`, `0` when
`last_applied_at` is absent. -/
def specDecayPenalty : Option ℤ → ℚ
  | none => 0
  | some d => min ((d.fdiv 7 : ℤ) * decay_rate) (4/10)

/-- Modelled from the spec sentence of claim C1, to be compared with the
source function: `base + min(times_reinforced * 0.1, 0.45) -
decay_penalty`, clamped to `[0.1, 0.95]`. -/
def specConfidence (base : ℚ) (times_reinforced : ℕ)
    (days_since_applied : Option ℤ) : ℚ :=
  max (1/10) (min (19/20)
    (base + min ((times_reinforced : ℚ) * (1/10)) (45/100)
      - specDecayPenalty days_since_applied))

/-- C1: `calculate_confidence` computes exactly the spec formula
`base + min(times_reinforced * 0.1, 0.45) - decay_penalty` with
`decay_penalty = min(floor(days_since/7) * decay_rate, 0.4)` (zero when
`last_applied_at` is absent), and the result is always clamped to
`[0.1, 0.95]`, for every base, every `times_reinforced ≥ 0` and any
(possibly absent) timestamps. -/
theorem calculate_confidence_matches_spec
    (base : ℚ) (tr : ℕ) (dA : Option ℤ) (dR : Option ℤ) :
    calculate_confidence base tr dA dR = specConfidence base tr dA
      ∧ 1/10 ≤ calculate_confidence base tr dA dR
      ∧ calculate_confidence base tr dA dR ≤ 19/20 := by
  unfold calculate_confidence specConfidence specDecayPenalty
  refine ⟨?_, ?_, ?_⟩
  · have h45 : (45/100 : ℚ) = 9/20 := by norm_num
    have h4 : (4/10 : ℚ) = 2/5 := by norm_num
    rw [h45, h4]
  · exact le_max_left _ _
  · exact max_le (by norm_num) (min_le_left _ _)

/-! ## Rule merging (`merge_rules`, algorithms.py lines 201-219) -/

/-- Function `merge_rules` returns a copy of the existing rule dict with
`times_reinforced + 1`, `last_reinforced_at = utcnow().isoformat()` and
`confidence = min(0.95, confidence + 0.1)`; `now` stands for the
iso-formatted current time. -/
def merge_rules (existing_rule : Rule) (now : String) : Rule :=
  { existing_rule with
    times_reinforced := existing_rule.times_reinforced + 1
    last_reinforced_at := some now
    confidence := min (19/20) (existing_rule.confidence + 1/10) }

/-- C8: merging yields a copy with `times_reinforced` incremented by
exactly one, `last_reinforced_at` set to the current time, confidence
`min(0.95, old + 0.1)`, and all other fields unchanged; in particular a
rule with confidence `0.5` and `times_reinforced = 0` merges to
confidence `0.6` and `times_reinforced = 1`. -/
theorem merge_rules_spec (r : Rule) (now : String) :
    (merge_rules r now).times_reinforced = r.times_reinforced + 1
      ∧ (merge_rules r now).last_reinforced_at = some now
      ∧ (merge_rules r now).confidence = min (19/20) (r.confidence + 1/10)
      ∧ (merge_rules r now).id = r.id
      ∧ (merge_rules r now).user_id = r.user_id
      ∧ (merge_rules r now).content = r.content
      ∧ (merge_rules r now).days_since_applied = r.days_since_applied
      ∧ (merge_rules r now).applied_within_24h = r.applied_within_24h
      ∧ (merge_rules r now).embedding = r.embedding
      ∧ (merge_rules r now).status = r.status
      ∧ (r.confidence = 1/2 → r.times_reinforced = 0 →
          (merge_rules r now).confidence = 3/5
            ∧ (merge_rules r now).times_reinforced = 1) := by
  refine ⟨rfl, rfl, rfl, rfl, rfl, rfl, rfl, rfl, rfl, rfl, ?_⟩
  intro hc ht
  constructor
  · show min (19/20 : ℚ) (r.confidence + 1/10) = 3/5
    rw [hc]; norm_num
  · show r.times_reinforced + 1 = 1
    rw [ht]

/-- C8 witness: a concrete merge raising confidence `0.5 → 0.6` and
`times_reinforced` `0 → 1`. -/
theorem merge_rules_spec_witness :
    (merge_rules
        ⟨1, 1, "use bullet points", 1/2, 0, none, false, none, none,
          RuleStatus.active⟩ "t").confidence = 3/5
      ∧ (merge_rules
          ⟨1, 1, "use bullet points", 1/2, 0, none, false, none, none,
            RuleStatus.active⟩ "t").times_reinforced = 1 :=
  (merge_rules_spec
      ⟨1, 1, "use bullet points", 1/2, 0, none, false, none, none,
        RuleStatus.active⟩ "t").2.2.2.2.2.2.2.2.2.2 rfl rfl

/-! ## Decay sweep (`app/jobs/decay_processor.py`, `process_decay`) -/

/-- Result of one decay sweep: the rule store after the sweep, the
`processed`/`archived` counters, and the set of user ids whose cached
rule snapshot is invalidated after commit (`users_affected`). -/
structure SweepResult where
  rules : List Rule
  processed : ℕ
  archived : ℕ
  users_affected : Finset ℕ
deriving DecidableEq


/-- The per-rule body of the decay loop (decay_processor.py lines
41-70): recompute confidence with base `0.5` from the stored counters
and timestamps, persist it only when it moved by more than `0.01`, then
archive when `should_archive_rule` holds for the recomputed value.
Returns the updated rule together with the two audit-event flags
(significant-change, archived). -/
def decayStep (r : Rule) : Rule × Bool × Bool :=
  let new_confidence :=
    calculate_confidence (1/2) r.times_reinforced r.days_since_applied none
  let r1 :=
    if (1/100 : ℚ) < |new_confidence - r.confidence| then
      { r with confidence := new_confidence }
    else r
  let r2 :=
    if should_archive_rule new_confidence then
      { r1 with status := RuleStatus.archived }
    else r1
  (r2, decide ((1/100 : ℚ) < |new_confidence - r.confidence|),
    should_archive_rule new_confidence)

/-- Function `process_decay` over an in-memory store: rules with
`status == active` are selected and run through the decay loop, all
other rows are untouched; a user id joins `users_affected` exactly when
one of its rules had a significant confidence change. -/
def process_decay : List Rule → SweepResult
  | [] => ⟨[], 0, 0, ∅⟩
  | r :: rs =>
    let rest := process_decay rs
    if r.status = RuleStatus.active then
      let s := decayStep r
      ⟨s.1 :: rest.rules,
        (if s.2.1 then 1 else 0) + rest.processed,
        (if s.2.2 then 1 else 0) + rest.archived,
        if s.2.1 then insert r.user_id rest.users_affected
          else rest.users_affected⟩
    else
      ⟨r :: rest.rules, rest.processed, rest.archived, rest.users_affected⟩

/-- When the decay step does not archive, the status is unchanged and
running the step again on its output is a no-op with both flags off. -/
theorem decayStep_stable (r : Rule) (h : (decayStep r).2.2 = false) :
    (decayStep r).1.status = r.status
      ∧ decayStep (decayStep r).1 = ((decayStep r).1, false, false) := by
  have harch : should_archive_rule
      (calculate_confidence (1/2) r.times_reinforced r.days_since_applied none)
        = false := h
  set nc :=
    calculate_confidence (1/2) r.times_reinforced r.days_since_applied none
    with hnc
  have harchne : ¬(should_archive_rule nc = true) := by
    rw [harch]; exact Bool.false_ne_true
  have h01 : ¬((1/100 : ℚ) < 0) := by norm_num
  by_cases hc : (1/100 : ℚ) < |nc - r.confidence|
  · have hstep : decayStep r = ⟨{ r with confidence := nc }, true, false⟩ := by
      dsimp only [decayStep]
      rw [← hnc]
      rw [if_pos hc, if_neg harchne, decide_eq_true hc, harch]
    rw [hstep]
    refine ⟨rfl, ?_⟩
    show decayStep { r with confidence := nc }
      = ({ r with confidence := nc }, false, false)
    dsimp only [decayStep]
    rw [← hnc]
    rw [sub_self, abs_zero]
    rw [if_neg h01, if_neg harchne, decide_eq_false h01, harch]
  · have hstep : decayStep r = ⟨r, false, false⟩ := by
      dsimp only [decayStep]
      rw [← hnc]
      rw [if_neg hc, if_neg harchne, decide_eq_false hc, harch]
    rw [hstep]
    exact ⟨rfl, hstep⟩

/-- When the decay step archives, the resulting row is `archived` and is
excluded from the active set of the next sweep. -/
theorem decayStep_archives (r : Rule) (h : (decayStep r).2.2 = true) :
    (decayStep r).1.status = RuleStatus.archived := by
  have harch : should_archive_rule
      (calculate_confidence (1/2) r.times_reinforced r.days_since_applied none)
        = true := h
  set nc :=
    calculate_confidence (1/2) r.times_reinforced r.days_since_applied none
    with hnc
  dsimp only [decayStep]
  rw [← hnc]
  rw [if_pos harch]

/-- Unfolding of `process_decay` on an active head row. -/
theorem process_decay_cons_active (r : Rule) (rs : List Rule)
    (h : r.status = RuleStatus.active) :
    process_decay (r :: rs) =
      ⟨(decayStep r).1 :: (process_decay rs).rules,
        (if (decayStep r).2.1 then 1 else 0) + (process_decay rs).processed,
        (if (decayStep r).2.2 then 1 else 0) + (process_decay rs).archived,
        if (decayStep r).2.1 then
          insert r.user_id (process_decay rs).users_affected
        else (process_decay rs).users_affected⟩ := by
  dsimp only [process_decay]
  rw [if_pos h]

/-- Unfolding of `process_decay` on a non-active head row: the row is
passed through untouched. -/
theorem process_decay_cons_inactive (r : Rule) (rs : List Rule)
    (h : ¬ r.status = RuleStatus.active) :
    process_decay (r :: rs) =
      ⟨r :: (process_decay rs).rules, (process_decay rs).processed,
        (process_decay rs).archived, (process_decay rs).users_affected⟩ := by
  dsimp only [process_decay]
  rw [if_neg h]

/-- C5: the decay sweep is idempotent.  Rerunning `process_decay`
immediately on the store it produced (no time elapsed, counters and
timestamps unchanged) changes no rule, logs zero decay events, archives
zero additional rules and invalidates no user cache, because confidence
is recomputed from stored counters and archived rows leave the active
set. -/
theorem process_decay_idempotent (rules : List Rule) :
    (process_decay (process_decay rules).rules).rules
        = (process_decay rules).rules
      ∧ (process_decay (process_decay rules).rules).processed = 0
      ∧ (process_decay (process_decay rules).rules).archived = 0
      ∧ (process_decay (process_decay rules).rules).users_affected = ∅ := by
  induction rules with
  | nil => exact ⟨rfl, rfl, rfl, rfl⟩
  | cons r rs ih =>
    obtain ⟨ihr, ihp, iha, ihu⟩ := ih
    by_cases hact : r.status = RuleStatus.active
    · rw [process_decay_cons_active r rs hact]
      by_cases harch : (decayStep r).2.2 = true
      · have hst := decayStep_archives r harch
        have hne : ¬ (decayStep r).1.status = RuleStatus.active := by
          rw [hst]
          intro hcon
          cases hcon
        dsimp only
        rw [process_decay_cons_inactive _ _ hne]
        exact ⟨by rw [ihr], ihp, iha, ihu⟩
      · have hb : (decayStep r).2.2 = false := by
          cases hx : (decayStep r).2.2
          · rfl
          · exact absurd hx harch
        obtain ⟨hst, hre⟩ := decayStep_stable r hb
        have hact' : (decayStep r).1.status = RuleStatus.active := by
          rw [hst]
          exact hact
        dsimp only
        rw [process_decay_cons_active _ _ hact']
        rw [hre]
        refine ⟨?_, ?_, ?_, ?_⟩
        · dsimp only
          rw [ihr]
        · dsimp only
          rw [ihp]
          simp
        · dsimp only
          rw [iha]
          simp
        · dsimp only
          rw [ihu]
          simp
    · rw [process_decay_cons_inactive r rs hact]
      dsimp only
      rw [process_decay_cons_inactive r _ hact]
      exact ⟨by rw [ihr], ihp, iha, ihu⟩

/-- A stored rule exhibiting the archive-without-invalidation gap:
stored confidence `0.15`, never reinforced, last applied 49 days ago.
The sweep recomputes confidence `0.5 - min(7 * 0.05, 0.4) = 0.15`, a
change of `0` (below the `0.01` epsilon), yet `0.15 < 0.2` archives the
rule. -/
def staleRule : Rule :=
  ⟨1, 7, "", 3/20, 0, some 49, false, none, none, RuleStatus.active⟩

/-- C6 (code bug): the sweep archives `staleRule` (one archived rule,
whose row leaves the sweep with `status = archived`), but
`users_affected` stays empty, so the cached rule snapshot of user `7`
is never invalidated even though their rule set was mutated. -/
theorem process_decay_archive_without_invalidation :
    (process_decay [staleRule]).archived = 1
      ∧ (process_decay [staleRule]).users_affected = ∅
      ∧ (process_decay [staleRule]).rules.map Rule.status
          = [RuleStatus.archived] := by
  have hnc : calculate_confidence (1/2) 0 (some 49) none = 3/20 := by
    unfold calculate_confidence decay_rate
    dsimp only
    rw [show ((49:ℤ).fdiv 7) = 7 from by decide]
    norm_num [min_def, max_def]
  have hchanged : (decayStep staleRule).2.1 = false := by
    dsimp only [decayStep, staleRule]
    rw [hnc]
    rw [sub_self, abs_zero]
    exact decide_eq_false (by norm_num)
  have harch : (decayStep staleRule).2.2 = true := by
    dsimp only [decayStep, staleRule]
    rw [hnc]
    unfold should_archive_rule archive_threshold
    exact decide_eq_true (by norm_num)
  have hact : staleRule.status = RuleStatus.active := rfl
  rw [process_decay_cons_active staleRule [] hact]
  rw [hchanged, harch]
  refine ⟨rfl, ?_, ?_⟩
  · simp [process_decay]
  · have hst := decayStep_archives staleRule harch
    simp [process_decay, hst]

/-! ## Cosine similarity (`cosine_similarity`, algorithms.py 148-169) -/

/-- Dot product of two embedding vectors (`np.dot` on equal-dimension
vectors). -/
def dot (vec1 vec2 : List ℚ) : ℚ :=
  (List.zipWith (· * ·) vec1 vec2).sum

/-- Sum of squared components; `np.linalg.norm v = sqrt (sumSq v)`. -/
def sumSq (v : List ℚ) : ℚ :=
  (v.map (fun x => x * x)).sum

/-- Sum of squares is non-negative. -/
theorem sumSq_nonneg (v : List ℚ) : 0 ≤ sumSq v := by
  induction v with
  | nil => simp [sumSq]
  | cons x t ih =>
    simp only [sumSq, List.map_cons, List.sum_cons]
    have := mul_self_nonneg x
    calc (0:ℚ) ≤ x * x + 0 := by linarith
    _ ≤ x * x + (t.map (fun y => y * y)).sum := by
        have : (0:ℚ) ≤ (t.map (fun y => y * y)).sum := ih
        linarith

/-- Dot product of componentwise non-negative vectors is
non-negative. -/
theorem dot_nonneg : ∀ (a b : List ℚ), (∀ x ∈ a, 0 ≤ x) →
    (∀ x ∈ b, 0 ≤ x) → 0 ≤ dot a b
  | [], _, _, _ => by simp [dot]
  | _ :: _, [], _, _ => by simp [dot]
  | x :: t, y :: s, ha, hb => by
    have hx : 0 ≤ x := ha x (List.mem_cons_self _ _)
    have hy : 0 ≤ y := hb y (List.mem_cons_self _ _)
    have ht : 0 ≤ dot t s :=
      dot_nonneg t s (fun z hz => ha z (List.mem_cons_of_mem _ hz))
        (fun z hz => hb z (List.mem_cons_of_mem _ hz))
    simp only [dot, List.zipWith_cons_cons, List.sum_cons]
    have hxy := mul_nonneg hx hy
    unfold dot at ht
    linarith

/-- Dot product of a vector with itself is its sum of squares. -/
theorem dot_self (v : List ℚ) : dot v v = sumSq v := by
  induction v with
  | nil => rfl
  | cons x t ih =>
    simp only [dot, sumSq, List.zipWith_cons_cons, List.map_cons,
      List.sum_cons] at *
    rw [ih]

/-- A vector with a non-zero component has positive sum of squares. -/
theorem sumSq_pos (v : List ℚ) (x : ℚ) (hx : x ∈ v) (hne : x ≠ 0) :
    0 < sumSq v := by
  induction v with
  | nil => cases hx
  | cons y t ih =>
    simp only [sumSq, List.map_cons, List.sum_cons]
    rcases List.mem_cons.mp hx with h | h
    · subst h
      have h1 : 0 < x * x := mul_self_pos.mpr hne
      have h2 : 0 ≤ (t.map (fun z => z * z)).sum := sumSq_nonneg t
      linarith
    · have h1 : 0 < sumSq t := ih h
      have h2 : 0 ≤ y * y := mul_self_nonneg y
      unfold sumSq at h1
      linarith

/-- Cauchy-Schwarz for the list dot product. -/
theorem dot_sq_le : ∀ (a b : List ℚ), (dot a b)^2 ≤ sumSq a * sumSq b
  | [], b => by
    have := sumSq_nonneg b
    simp [dot, sumSq]
  | x :: t, [] => by
    have := sumSq_nonneg (x :: t)
    simp [dot, sumSq]
  | x :: t, y :: s => by
    have hD := dot_sq_le t s
    have hA := sumSq_nonneg t
    have hB := sumSq_nonneg s
    simp only [dot, sumSq, List.zipWith_cons_cons, List.map_cons,
      List.sum_cons] at *
    set D := (List.zipWith (· * ·) t s).sum with hDdef
    set A := (t.map (fun z => z * z)).sum with hAdef
    set B := (s.map (fun z => z * z)).sum with hBdef
    have key : 2 * (x * y) * D ≤ x^2 * B + y^2 * A := by
      have ht : 0 ≤ x^2 * B + y^2 * A := by positivity
      have h1 : (2 * (x * y) * D)^2 ≤ (x^2 * B + y^2 * A)^2 := by
        nlinarith [sq_nonneg (x^2 * B - y^2 * A), sq_nonneg (x * y),
          mul_nonneg hA hB]
      nlinarith [h1, ht]
    nlinarith [hD, key]

/-- Function `cosine_similarity` (algorithms.py lines 148-169): the dot
product over
the product of Euclidean norms, `0.0` when either norm is zero. -/
noncomputable def cosine_similarity (vec1 vec2 : List ℚ) : ℝ :=
  let dot_product : ℝ := (dot vec1 vec2 : ℚ)
  let norm1 : ℝ := Real.sqrt ((sumSq vec1 : ℚ) : ℝ)
  let norm2 : ℝ := Real.sqrt ((sumSq vec2 : ℚ) : ℝ)
  if norm1 = 0 ∨ norm2 = 0 then 0 else dot_product / (norm1 * norm2)

/-- C9: `cosine_similarity` is total (never raises, never divides by
zero): it returns `0.0` whenever either vector has zero norm, stays in
`[0, 1]` for vectors with non-negative components, and equals `1`
exactly on any non-zero vector paired with itself. -/
theorem cosine_similarity_bounds (a b v : List ℚ) :
    ((sumSq a = 0 ∨ sumSq b = 0) → cosine_similarity a b = 0)
      ∧ ((∀ x ∈ a, 0 ≤ x) → (∀ x ∈ b, 0 ≤ x) →
          0 ≤ cosine_similarity a b ∧ cosine_similarity a b ≤ 1)
      ∧ ((∃ x ∈ v, x ≠ 0) → cosine_similarity v v = 1) := by
  have hA : (0:ℝ) ≤ ((sumSq a : ℚ) : ℝ) := by
    exact_mod_cast sumSq_nonneg a
  have hB : (0:ℝ) ≤ ((sumSq b : ℚ) : ℝ) := by
    exact_mod_cast sumSq_nonneg b
  refine ⟨?_, ?_, ?_⟩
  · intro h
    dsimp only [cosine_similarity]
    rcases h with h | h
    · rw [if_pos (Or.inl (by rw [h]; simp))]
    · rw [if_pos (Or.inr (by rw [h]; simp))]
  · intro ha hb
    dsimp only [cosine_similarity]
    by_cases hz : Real.sqrt ((sumSq a : ℚ) : ℝ) = 0
        ∨ Real.sqrt ((sumSq b : ℚ) : ℝ) = 0
    · rw [if_pos hz]
      norm_num
    · rw [if_neg hz]
      push_neg at hz
      obtain ⟨h1ne, h2ne⟩ := hz
      have hs1 : 0 < Real.sqrt ((sumSq a : ℚ) : ℝ) :=
        (Real.sqrt_nonneg _).lt_of_ne (Ne.symm h1ne)
      have hs2 : 0 < Real.sqrt ((sumSq b : ℚ) : ℝ) :=
        (Real.sqrt_nonneg _).lt_of_ne (Ne.symm h2ne)
      have hdot0 : (0:ℝ) ≤ ((dot a b : ℚ) : ℝ) := by
        exact_mod_cast dot_nonneg a b ha hb
      constructor
      · exact div_nonneg hdot0
          (mul_nonneg (Real.sqrt_nonneg _) (Real.sqrt_nonneg _))
      · rw [div_le_one (mul_pos hs1 hs2)]
        have hcs : ((dot a b : ℚ) : ℝ)^2
            ≤ ((sumSq a : ℚ) : ℝ) * ((sumSq b : ℚ) : ℝ) := by
          exact_mod_cast dot_sq_le a b
        calc ((dot a b : ℚ) : ℝ)
            = Real.sqrt (((dot a b : ℚ) : ℝ)^2) := (Real.sqrt_sq hdot0).symm
          _ ≤ Real.sqrt (((sumSq a : ℚ) : ℝ) * ((sumSq b : ℚ) : ℝ)) :=
              Real.sqrt_le_sqrt hcs
          _ = Real.sqrt ((sumSq a : ℚ) : ℝ) * Real.sqrt ((sumSq b : ℚ) : ℝ) :=
              Real.sqrt_mul hA _
  · rintro ⟨x, hxv, hxne⟩
    have hpos : 0 < sumSq v := sumSq_pos v x hxv hxne
    have hposR : (0:ℝ) < ((sumSq v : ℚ) : ℝ) := by exact_mod_cast hpos
    have hs : 0 < Real.sqrt ((sumSq v : ℚ) : ℝ) := Real.sqrt_pos.mpr hposR
    dsimp only [cosine_similarity]
    rw [if_neg (by push_neg; exact ⟨ne_of_gt hs, ne_of_gt hs⟩)]
    rw [dot_self]
    rw [Real.mul_self_sqrt (le_of_lt hposR)]
    exact div_self (ne_of_gt hposR)

/-- C9 witness: a zero vector pairs to similarity `0`, a concrete
non-negative pair stays within `[0, 1]`, and a non-zero vector is
perfectly similar to itself. -/
theorem cosine_similarity_bounds_witness :
    cosine_similarity [0] [1] = 0
      ∧ 0 ≤ cosine_similarity [1] [2]
      ∧ cosine_similarity [1] [2] ≤ 1
      ∧ cosine_similarity [2] [2] = 1 := by
  refine ⟨(cosine_similarity_bounds [0] [1] [2]).1
      (Or.inl (by simp [sumSq])), ?_, ?_,
    (cosine_similarity_bounds [1] [2] [2]).2.2
      ⟨2, List.mem_singleton.mpr rfl, by norm_num⟩⟩
  · exact ((cosine_similarity_bounds [1] [2] [2]).2.1
      (by intro x hx; rw [List.mem_singleton] at hx; rw [hx]; norm_num)
      (by intro x hx; rw [List.mem_singleton] at hx; rw [hx]; norm_num)).1
  · exact ((cosine_similarity_bounds [1] [2] [2]).2.1
      (by intro x hx; rw [List.mem_singleton] at hx; rw [hx]; norm_num)
      (by intro x hx; rw [List.mem_singleton] at hx; rw [hx]; norm_num)).2

/-! ## Duplicate detection (`find_similar_rule`, algorithms.py 172-198) -/

/-- The Python default-substitution `threshold = threshold or
settings.similarity_threshold`: an absent (`None`) or falsy (`0.0`)
threshold is replaced by the configured similarity threshold. -/
def effThreshold : Option ℚ → ℚ
  | none => similarity_threshold
  | some t => if t = 0 then similarity_threshold else t

/-- The scan loop of `find_similar_rule`: skip rules without a truthy
embedding, return the first rule whose cosine similarity with the
candidate reaches the threshold. -/
noncomputable def findLoop (new_rule_embedding : List ℚ) (t : ℚ) :
    List Rule → Option Rule
  | [] => none
  | r :: rest =>
    if vecTruthy r.embedding then
      if (t : ℝ) ≤ cosine_similarity new_rule_embedding (r.embedding.getD [])
        then some r
      else findLoop new_rule_embedding t rest
    else findLoop new_rule_embedding t rest

/-- Function `find_similar_rule` (algorithms.py lines 172-198). -/
noncomputable def find_similar_rule (new_rule_embedding : List ℚ)
    (existing_rules : List Rule) (threshold : Option ℚ) : Option Rule :=
  findLoop new_rule_embedding (effThreshold threshold) existing_rules

/-- A rule qualifies as a duplicate at threshold `t` when it carries a
truthy embedding whose similarity with the candidate reaches `t`. -/
def ruleMatches (emb : List ℚ) (t : ℚ) (r : Rule) : Prop :=
  vecTruthy r.embedding = true
    ∧ (t : ℝ) ≤ cosine_similarity emb (r.embedding.getD [])

/-- The scan loop returns `none` exactly when no rule matches. -/
theorem findLoop_none_iff (emb : List ℚ) (t : ℚ) (l : List Rule) :
    findLoop emb t l = none ↔ ∀ r ∈ l, ¬ ruleMatches emb t r := by
  induction l with
  | nil => simp [findLoop]
  | cons q rest ih =>
    by_cases h1 : vecTruthy q.embedding = true
    · by_cases h2 : (t : ℝ) ≤ cosine_similarity emb (q.embedding.getD [])
      · show (if vecTruthy q.embedding = true then _ else _) = none ↔ _
        rw [if_pos h1, if_pos h2]
        constructor
        · intro h
          cases h
        · intro h
          exact absurd ⟨h1, h2⟩ (h q (List.mem_cons_self _ _))
      · show (if vecTruthy q.embedding = true then _ else _) = none ↔ _
        rw [if_pos h1, if_neg h2]
        rw [ih, List.forall_mem_cons]
        constructor
        · intro h
          exact ⟨fun hm => h2 hm.2, h⟩
        · intro h
          exact h.2
    · show (if vecTruthy q.embedding = true then _ else _) = none ↔ _
      rw [if_neg h1]
      rw [ih, List.forall_mem_cons]
      constructor
      · intro h
        exact ⟨fun hm => h1 hm.1, h⟩
      · intro h
        exact h.2

/-- When the scan loop returns a rule, that rule matches and every rule
before it in input order does not: first-match, not best-match. -/
theorem findLoop_some (emb : List ℚ) (t : ℚ) :
    ∀ (l : List Rule) (r : Rule), findLoop emb t l = some r →
      ruleMatches emb t r ∧ ∃ pre post, l = pre ++ r :: post
        ∧ ∀ q ∈ pre, ¬ ruleMatches emb t q
  | [], r => by
    intro h
    cases h
  | q :: rest, r => by
    intro h
    by_cases h1 : vecTruthy q.embedding = true
    · by_cases h2 : (t : ℝ) ≤ cosine_similarity emb (q.embedding.getD [])
      · rw [show findLoop emb t (q :: rest)
            = (if vecTruthy q.embedding = true then
                if (t : ℝ) ≤ cosine_similarity emb (q.embedding.getD [])
                  then some q
                else findLoop emb t rest
              else findLoop emb t rest) from rfl,
          if_pos h1, if_pos h2] at h
        cases h
        exact ⟨⟨h1, h2⟩, [], rest, rfl, by intro z hz; cases hz⟩
      · rw [show findLoop emb t (q :: rest)
            = (if vecTruthy q.embedding = true then
                if (t : ℝ) ≤ cosine_similarity emb (q.embedding.getD [])
                  then some q
                else findLoop emb t rest
              else findLoop emb t rest) from rfl,
          if_pos h1, if_neg h2] at h
        obtain ⟨hm, pre, post, heq, hpre⟩ := findLoop_some emb t rest r h
        exact ⟨hm, q :: pre, post, by rw [heq]; rfl,
          List.forall_mem_cons.mpr ⟨fun hc => h2 hc.2, hpre⟩⟩
    · rw [show findLoop emb t (q :: rest)
          = (if vecTruthy q.embedding = true then
              if (t : ℝ) ≤ cosine_similarity emb (q.embedding.getD [])
                then some q
              else findLoop emb t rest
            else findLoop emb t rest) from rfl,
        if_neg h1] at h
      obtain ⟨hm, pre, post, heq, hpre⟩ := findLoop_some emb t rest r h
      exact ⟨hm, q :: pre, post, by rw [heq]; rfl,
        List.forall_mem_cons.mpr ⟨fun hc => h1 hc.1, hpre⟩⟩

/-- A rule whose embedding is orthogonal to the candidate `[1, 0]`. -/
def orthRule : Rule :=
  ⟨3, 1, "avoid em dashes", 1/2, 0, none, false, some [0, 1], none,
    RuleStatus.active⟩

/-- Orthogonal unit vectors have cosine similarity `0`. -/
theorem cosine_orth : cosine_similarity [1, 0] [0, 1] = 0 := by
  have hd : dot [1, 0] [0, 1] = 0 := by norm_num [dot]
  have h1 : sumSq [1, 0] = 1 := by norm_num [sumSq]
  have h2 : sumSq [0, 1] = 1 := by norm_num [sumSq]
  dsimp only [cosine_similarity]
  rw [hd, h1, h2]
  rw [if_neg]
  · norm_num
  · rw [show ((1 : ℚ) : ℝ) = 1 from by norm_num, Real.sqrt_one]
    push_neg
    norm_num

/-- C3 counterexample: with an explicitly passed threshold of `0.0`,
`find_similar_rule` does **not** return the first embedded rule whose
similarity is at or above that threshold.  `orthRule` carries a truthy
embedding with similarity `0 ≥ 0`, yet the scan returns `none`, because
the falsy `0.0` is silently replaced by the configured similarity
threshold `0.85`. -/
theorem find_similar_rule_zero_threshold_counterexample :
    find_similar_rule [1, 0] [orthRule] (some 0) = none
      ∧ vecTruthy orthRule.embedding = true
      ∧ (0 : ℝ) ≤ cosine_similarity [1, 0] (orthRule.embedding.getD []) := by
  have hgd : orthRule.embedding.getD [] = [0, 1] := rfl
  refine ⟨?_, rfl, ?_⟩
  · show findLoop [1, 0] (effThreshold (some 0)) [orthRule] = none
    rw [show effThreshold (some 0) = similarity_threshold from rfl]
    show (if vecTruthy orthRule.embedding = true then
        if (similarity_threshold : ℝ)
            ≤ cosine_similarity [1, 0] (orthRule.embedding.getD [])
          then some orthRule
        else findLoop [1, 0] similarity_threshold []
      else findLoop [1, 0] similarity_threshold []) = none
    rw [if_pos (show vecTruthy orthRule.embedding = true from rfl), if_neg]
    · rfl
    · rw [hgd, cosine_orth]
      unfold similarity_threshold
      push_neg
      norm_num
  · rw [hgd, cosine_orth]

/-- C3 amended: for every explicitly passed **non-zero** threshold `t`
(a zero threshold is falsy and replaced by the configured default),
`find_similar_rule` returns `none` exactly when no rule carrying a
truthy embedding has similarity at or above `t`, and otherwise returns
the first such rule in input order (first-match, not best-match); rules
without an embedding are skipped and never returned. -/
theorem find_similar_rule_first_match (emb : List ℚ) (rules : List Rule)
    (t : ℚ) (ht : t ≠ 0) :
    (find_similar_rule emb rules (some t) = none
        ↔ ∀ r ∈ rules, ¬ ruleMatches emb t r)
      ∧ ∀ r, find_similar_rule emb rules (some t) = some r →
          ruleMatches emb t r ∧ ∃ pre post, rules = pre ++ r :: post
            ∧ ∀ q ∈ pre, ¬ ruleMatches emb t q := by
  have heff : effThreshold (some t) = t := by
    show (if t = 0 then similarity_threshold else t) = t
    rw [if_neg ht]
  unfold find_similar_rule
  rw [heff]
  exact ⟨findLoop_none_iff emb t rules, findLoop_some emb t rules⟩

/-- C3 witness: at the explicit non-zero threshold `0.5`, a rule with
no embedding is skipped and the scan reports no match. -/
theorem find_similar_rule_first_match_witness :
    find_similar_rule [1]
        [⟨4, 1, "no embedding", 1/2, 0, none, false, none, none,
          RuleStatus.active⟩] (some (1/2)) = none :=
  (find_similar_rule_first_match [1]
      [⟨4, 1, "no embedding", 1/2, 0, none, false, none, none,
        RuleStatus.active⟩] (1/2) (by norm_num)).1.mpr
    (by
      intro r hr
      rw [List.mem_singleton] at hr
      subst hr
      intro hm
      exact absurd hm.1 (by simp [vecTruthy]))

/-- C10: passing an explicit threshold of `0.0` to `find_similar_rule`
behaves identically to passing no threshold at all: the falsy value is
replaced by the configured `similarity_threshold`, so a zero threshold
does not make every embedded rule match. -/
theorem find_similar_rule_falsy_threshold_default (emb : List ℚ)
    (rules : List Rule) :
    find_similar_rule emb rules (some 0) = find_similar_rule emb rules none
      ∧ effThreshold (some 0) = similarity_threshold
      ∧ similarity_threshold = 17/20 := by
  exact ⟨rfl, rfl, rfl⟩

/-! ## Rule ranking (`rank_rules`, algorithms.py lines 95-145) -/

/-- The per-rule score of `rank_rules`:
`confidence * relevance * recency_boost`, where relevance is the cosine
similarity of the context and rule embeddings when both are truthy and
`1.0` otherwise, and the recency boost is `1.2` for a rule applied in
the last 24 hours, else `1.0`. -/
noncomputable def scoreOf (context_embedding : Option (List ℚ)) (r : Rule) :
    ℝ :=
  let relevance : ℝ :=
    if vecTruthy context_embedding && vecTruthy r.embedding then
      cosine_similarity (context_embedding.getD []) (r.embedding.getD [])
    else 1
  let recency_boost : ℝ := if r.applied_within_24h then 6/5 else 1
  (r.confidence : ℝ) * relevance * recency_boost

/-- The accumulation loop of `rank_rules`: walk the rules in input
order (index `n` onwards), keep those whose confidence reaches the
configured threshold, and pair each with its input position and
score. -/
noncomputable def scoredAux (ctx : Option (List ℚ)) :
    ℕ → List Rule → List (ℕ × Rule × ℝ)
  | _, [] => []
  | i, r :: rs =>
    if confidence_threshold ≤ r.confidence then
      (i, r, scoreOf ctx r) :: scoredAux ctx (i + 1) rs
    else scoredAux ctx (i + 1) rs

/-- The ordering realised by the stable Python
`sort(key=score, reverse=True)` on the index-decorated scored list:
higher score first, equal scores in input-index order. -/
def lexScore : (ℕ × Rule × ℝ) → (ℕ × Rule × ℝ) → Prop :=
  fun a b => b.2.2 < a.2.2 ∨ (a.2.2 = b.2.2 ∧ a.1 ≤ b.1)

noncomputable instance : DecidableRel lexScore :=
  fun a b =>
    inferInstanceAs (Decidable (b.2.2 < a.2.2 ∨ (a.2.2 = b.2.2 ∧ a.1 ≤ b.1)))

instance : IsTotal (ℕ × Rule × ℝ) lexScore where
  total := by
    intro a b
    rcases lt_trichotomy a.2.2 b.2.2 with h | h | h
    · exact Or.inr (Or.inl h)
    · rcases le_total a.1 b.1 with hi | hi
      · exact Or.inl (Or.inr ⟨h, hi⟩)
      · exact Or.inr (Or.inr ⟨h.symm, hi⟩)
    · exact Or.inl (Or.inl h)

instance : IsTrans (ℕ × Rule × ℝ) lexScore where
  trans := by
    intro a b c hab hbc
    rcases hab with h1 | h1
    · rcases hbc with h2 | h2
      · exact Or.inl (h2.trans h1)
      · exact Or.inl (h2.1 ▸ h1)
    · rcases hbc with h2 | h2
      · exact Or.inl (by rw [h1.1]; exact h2)
      · exact Or.inr ⟨h1.1.trans h2.1, h1.2.trans h2.2⟩

/-- The sorted, index-decorated scored list of `rank_rules` before
truncation. -/
noncomputable def rankRulesDec (rules : List Rule)
    (ctx : Option (List ℚ)) : List (ℕ × Rule × ℝ) :=
  List.insertionSort lexScore (scoredAux ctx 0 rules)

/-- Function `rank_rules` (algorithms.py lines 95-145): score and
filter in input
order, sort stably by score descending, truncate to `max_rules`. -/
noncomputable def rank_rules (rules : List Rule) (ctx : Option (List ℚ))
    (max_rules : ℕ) : List (Rule × ℝ) :=
  ((rankRulesDec rules ctx).map Prod.snd).take max_rules

/-- The scored list is the enumeration of the input filtered to the
rules whose confidence reaches the threshold, each paired with its
input position and score. -/
theorem scoredAux_eq (ctx : Option (List ℚ)) :
    ∀ (n : ℕ) (rules : List Rule),
      scoredAux ctx n rules
        = ((List.enumFrom n rules).filter
              (fun p => decide (confidence_threshold ≤ p.2.confidence))).map
            (fun p => (p.1, p.2, scoreOf ctx p.2))
  | _, [] => rfl
  | n, r :: rs => by
    show (if confidence_threshold ≤ r.confidence then
        (n, r, scoreOf ctx r) :: scoredAux ctx (n + 1) rs
      else scoredAux ctx (n + 1) rs) = _
    rw [List.enumFrom_cons]
    by_cases h : confidence_threshold ≤ r.confidence
    · rw [if_pos h, List.filter_cons_of_pos (by simpa using h),
        List.map_cons, scoredAux_eq ctx (n + 1) rs]
    · rw [if_neg h, List.filter_cons_of_neg (by simpa using h),
        scoredAux_eq ctx (n + 1) rs]

/-- Projecting the rules back out of the scored list yields exactly the
input rules that pass the confidence threshold, in input order. -/
theorem scoredAux_fst (ctx : Option (List ℚ)) :
    ∀ (n : ℕ) (rules : List Rule),
      (scoredAux ctx n rules).map (fun x => x.2.1)
        = rules.filter (fun r => decide (confidence_threshold ≤ r.confidence))
  | _, [] => rfl
  | n, r :: rs => by
    show ((if confidence_threshold ≤ r.confidence then
        (n, r, scoreOf ctx r) :: scoredAux ctx (n + 1) rs
      else scoredAux ctx (n + 1) rs).map (fun x => x.2.1)) = _
    by_cases h : confidence_threshold ≤ r.confidence
    · rw [if_pos h, List.filter_cons_of_pos (by simpa using h),
        List.map_cons, scoredAux_fst ctx (n + 1) rs]
    · rw [if_neg h, List.filter_cons_of_neg (by simpa using h),
        scoredAux_fst ctx (n + 1) rs]

/-- C7: `rank_rules` keeps (before truncation) exactly the rules with
`confidence >= confidence_threshold`, pairs each with its score
`confidence * relevance * recency_boost` (relevance is the cosine
similarity when both context and rule embeddings are truthy, else
`1.0`), sorts by score descending with ties in input order (the
decorated list is sorted under `lexScore`, whose indices are the input
positions), and truncates to `max_rules`. -/
theorem rank_rules_spec (rules : List Rule) (ctx : Option (List ℚ))
    (max_rules : ℕ) :
    rank_rules rules ctx max_rules
        = ((rankRulesDec rules ctx).map Prod.snd).take max_rules
      ∧ (rankRulesDec rules ctx).Perm (scoredAux ctx 0 rules)
      ∧ scoredAux ctx 0 rules
          = ((rules.enum).filter
                (fun p => decide (confidence_threshold ≤ p.2.confidence))).map
              (fun p => (p.1, p.2, scoreOf ctx p.2))
      ∧ (scoredAux ctx 0 rules).map (fun x => x.2.1)
          = rules.filter (fun r => decide (confidence_threshold ≤ r.confidence))
      ∧ List.Sorted lexScore (rankRulesDec rules ctx)
      ∧ List.Sorted (fun a b : Rule × ℝ => b.2 ≤ a.2)
          (rank_rules rules ctx max_rules) := by
  have hsorted : List.Sorted lexScore (rankRulesDec rules ctx) :=
    List.sorted_insertionSort lexScore (scoredAux ctx 0 rules)
  refine ⟨rfl, List.perm_insertionSort lexScore (scoredAux ctx 0 rules),
    scoredAux_eq ctx 0 rules, scoredAux_fst ctx 0 rules, hsorted, ?_⟩
  have hmap : List.Pairwise (fun a b : Rule × ℝ => b.2 ≤ a.2)
      ((rankRulesDec rules ctx).map Prod.snd) := by
    refine List.Pairwise.map Prod.snd ?_ hsorted
    intro a b hab
    rcases hab with h | h
    · exact le_of_lt h
    · exact le_of_eq h.1.symm
  exact List.Pairwise.sublist
    (List.take_sublist max_rules ((rankRulesDec rules ctx).map Prod.snd)) hmap

/-! ## Prompt budgeting (`select_rules_for_prompt`, algorithms.py
222-254) -/

/-- Rough token estimate of a rule: `len(content) // 4`. -/
def ruleTokens (r : Rule) : ℕ :=
  r.content.length / 4

/-- The greedy acceptance loop of `select_rules_for_prompt`: walk the
ranked list in order with a running total and stop (`break`) at the
first rule whose cost would push the total over the budget. -/
noncomputable def selectLoop (max_tokens : ℕ) :
    List (Rule × ℝ) → ℕ → List Rule
  | [], _ => []
  | (r, _) :: rest, estimated_tokens =>
    if max_tokens < estimated_tokens + ruleTokens r then []
    else r :: selectLoop max_tokens rest (estimated_tokens + ruleTokens r)

/-- Function `select_rules_for_prompt` (algorithms.py lines 222-254):
rank with
the default `max_rules = 10`, then greedily accept ranked rules while
the running token total stays within `max_tokens`. -/
noncomputable def select_rules_for_prompt (rules : List Rule)
    (context_embedding : Option (List ℚ)) (max_tokens : ℕ) : List Rule :=
  selectLoop max_tokens (rank_rules rules context_embedding 10) 0

/-- Unfolding of the greedy loop at a blocking head. -/
theorem selectLoop_cons_stop (max_tokens : ℕ) (r : Rule) (s : ℝ)
    (rest : List (Rule × ℝ)) (acc : ℕ)
    (h : max_tokens < acc + ruleTokens r) :
    selectLoop max_tokens ((r, s) :: rest) acc = [] := by
  show (if max_tokens < acc + ruleTokens r then []
    else r :: selectLoop max_tokens rest (acc + ruleTokens r)) = []
  rw [if_pos h]

/-- Unfolding of the greedy loop at an affordable head. -/
theorem selectLoop_cons_go (max_tokens : ℕ) (r : Rule) (s : ℝ)
    (rest : List (Rule × ℝ)) (acc : ℕ)
    (h : ¬ max_tokens < acc + ruleTokens r) :
    selectLoop max_tokens ((r, s) :: rest) acc
      = r :: selectLoop max_tokens rest (acc + ruleTokens r) := by
  show (if max_tokens < acc + ruleTokens r then []
    else r :: selectLoop max_tokens rest (acc + ruleTokens r)) = _
  rw [if_neg h]

/-- The running total of the greedy loop never exceeds the budget. -/
theorem selectLoop_budget (max_tokens : ℕ) :
    ∀ (l : List (Rule × ℝ)) (acc : ℕ), acc ≤ max_tokens →
      acc + ((selectLoop max_tokens l acc).map ruleTokens).sum ≤ max_tokens
  | [], acc, h => by simpa using h
  | (r, s) :: rest, acc, h => by
    by_cases hc : max_tokens < acc + ruleTokens r
    · rw [selectLoop_cons_stop _ _ _ _ _ hc]
      simpa using h
    · rw [selectLoop_cons_go _ _ _ _ _ hc]
      push_neg at hc
      have ih := selectLoop_budget max_tokens rest (acc + ruleTokens r) hc
      simp only [List.map_cons, List.sum_cons]
      omega

/-- The greedy loop returns a prefix of the ranked rules: it never
skips ahead. -/
theorem selectLoop_take (max_tokens : ℕ) :
    ∀ (l : List (Rule × ℝ)) (acc : ℕ),
      selectLoop max_tokens l acc
        = (l.map Prod.fst).take (selectLoop max_tokens l acc).length
  | [], _ => rfl
  | (r, s) :: rest, acc => by
    by_cases hc : max_tokens < acc + ruleTokens r
    · rw [selectLoop_cons_stop _ _ _ _ _ hc]
      rfl
    · rw [selectLoop_cons_go _ _ _ _ _ hc]
      rw [List.map_cons, List.length_cons, List.take_succ_cons]
      rw [← selectLoop_take max_tokens rest (acc + ruleTokens r)]

/-- When the greedy loop stops before exhausting the ranked list, the
very next ranked rule would push the running total over the budget. -/
theorem selectLoop_stop (max_tokens : ℕ) (d : Rule) :
    ∀ (l : List (Rule × ℝ)) (acc : ℕ),
      (selectLoop max_tokens l acc).length < l.length →
        max_tokens < acc + ((selectLoop max_tokens l acc).map ruleTokens).sum
          + ruleTokens ((l.map Prod.fst).getD
              (selectLoop max_tokens l acc).length d)
  | [], acc, h => absurd h (by simp)
  | (r, s) :: rest, acc, h => by
    by_cases hc : max_tokens < acc + ruleTokens r
    · rw [selectLoop_cons_stop _ _ _ _ _ hc]
      simpa using hc
    · rw [selectLoop_cons_go _ _ _ _ _ hc] at h ⊢
      have h' : (selectLoop max_tokens rest (acc + ruleTokens r)).length
          < rest.length := by
        simpa using h
      have ih := selectLoop_stop max_tokens d rest (acc + ruleTokens r) h'
      simp only [List.map_cons, List.sum_cons, List.length_cons,
        List.getD_cons_succ]
      omega

/-- Fallback rule used only as the `getD` default in statements about
the first rejected rule. -/
def defaultRule : Rule :=
  ⟨0, 0, "", 0, 0, none, false, none, none, RuleStatus.active⟩

/-- C2: the selection never exceeds the token budget (total estimated
cost `sum (len(content) // 4)` is at most `max_tokens`), and it is
strict greedy in rank order: the result is a prefix of the ranked list
and, when it stops early, the first unselected ranked rule would push
the running total over the budget (no skipping ahead to smaller
rules). -/
theorem select_rules_for_prompt_budget_greedy (rules : List Rule)
    (ctx : Option (List ℚ)) (max_tokens : ℕ) :
    ((select_rules_for_prompt rules ctx max_tokens).map ruleTokens).sum
        ≤ max_tokens
      ∧ select_rules_for_prompt rules ctx max_tokens
          = ((rank_rules rules ctx 10).map Prod.fst).take
              (select_rules_for_prompt rules ctx max_tokens).length
      ∧ ((select_rules_for_prompt rules ctx max_tokens).length
            < (rank_rules rules ctx 10).length →
          max_tokens
            < ((select_rules_for_prompt rules ctx max_tokens).map
                  ruleTokens).sum
              + ruleTokens (((rank_rules rules ctx 10).map Prod.fst).getD
                  (select_rules_for_prompt rules ctx max_tokens).length
                  defaultRule)) := by
  refine ⟨?_, selectLoop_take max_tokens (rank_rules rules ctx 10) 0, ?_⟩
  · have h := selectLoop_budget max_tokens (rank_rules rules ctx 10) 0
      (Nat.zero_le _)
    simpa using h
  · intro h
    have hs := selectLoop_stop max_tokens defaultRule
      (rank_rules rules ctx 10) 0 h
    simpa using hs

/-- An eligible rule with content of 8 characters (estimated cost 2
tokens), used to exercise the budget stop. -/
def selWitnessRule : Rule :=
  ⟨5, 1, "12345678", 1/2, 0, none, false, none, none, RuleStatus.active⟩

/-- C2 witness: with a budget of 1 token, the 2-token ranked rule is
rejected, the selection stops before exhausting the ranked list, and
the first unselected rule indeed overflows the budget. -/
theorem select_rules_for_prompt_budget_greedy_witness :
    (select_rules_for_prompt [selWitnessRule] none 1).length
        < (rank_rules [selWitnessRule] none 10).length
      ∧ 1 < ((select_rules_for_prompt [selWitnessRule] none 1).map
              ruleTokens).sum
          + ruleTokens (((rank_rules [selWitnessRule] none 10).map
                Prod.fst).getD
              (select_rules_for_prompt [selWitnessRule] none 1).length
              defaultRule) := by
  have hscored : scoredAux none 0 [selWitnessRule]
      = [(0, selWitnessRule, scoreOf none selWitnessRule)] := by
    show (if confidence_threshold ≤ selWitnessRule.confidence then
        (0, selWitnessRule, scoreOf none selWitnessRule)
          :: scoredAux none 1 []
      else scoredAux none 1 []) = _
    rw [if_pos (by
      show confidence_threshold ≤ selWitnessRule.confidence
      norm_num [confidence_threshold, selWitnessRule])]
    rfl
  have hrank : rank_rules [selWitnessRule] none 10
      = [(selWitnessRule, scoreOf none selWitnessRule)] := by
    unfold rank_rules rankRulesDec
    rw [hscored]
    rfl
  have hsel : select_rules_for_prompt [selWitnessRule] none 1 = [] := by
    unfold select_rules_for_prompt
    rw [hrank]
    exact selectLoop_cons_stop 1 selWitnessRule _ [] 0
      (by decide : (1:ℕ) < 0 + ruleTokens selWitnessRule)
  have hlen : (select_rules_for_prompt [selWitnessRule] none 1).length
      < (rank_rules [selWitnessRule] none 10).length := by
    rw [hsel, hrank]
    simp
  exact ⟨hlen,
    (select_rules_for_prompt_budget_greedy [selWitnessRule] none 1).2.2 hlen⟩

/-! ## Correction pipeline (`app/core/extraction.py`) -/

/-- Parsed JSON reply of the correction-detection service call; every
field may be missing (`result.get` defaults apply). -/
structure DetectOut where
  is_correction : Option Bool
  correction_type : Option String
  confidence : Option ℚ

/-- The fallback keyword list of `detect_correction` (extraction.py
lines 49-53). -/
def correction_keywords : List String :=
  ["don\x27t", "dont", "stop", "never", "always",
    "instead", "rather", "prefer", "please use",
    "not like", "wrong", "fix", "change"]

/-- Substring containment on character lists (Python `kw in s`). -/
def subOf : List Char → List Char → Bool
  | needle, [] => needle.isEmpty
  | needle, c :: rest => needle.isPrefixOf (c :: rest) || subOf needle rest

/-- Python `str.lower()` (ASCII case folding). -/
def str_lower (s : String) : String :=
  String.mk (s.data.map Char.toLower)

/-- Whether the lowercased message contains one of the fallback
correction keywords. -/
def hasCorrectionKeyword (user_message : String) : Bool :=
  correction_keywords.any (fun kw => subOf kw.data (str_lower user_message).data)

/-- Function `detect_correction` (extraction.py lines 21-55); `svc` is
the
outcome of the `extract_json_response` call (`none` when the call
raises); on failure the keyword heuristic decides. -/
def detect_correction (svc : Option DetectOut) (user_message : String)
    (_previous_response : String) : Bool × String × ℚ :=
  match svc with
  | some result =>
      (result.is_correction.getD false, result.correction_type.getD "none",
        result.confidence.getD 0)
  | none =>
      let is_correction := hasCorrectionKeyword user_message
      (is_correction, if is_correction then "style" else "none",
        if is_correction then 1/2 else 0)

/-- Parsed JSON reply of the rule-extraction service call. -/
structure ExtractOut where
  is_valid : Option Bool
  rule : Option String
  category : Option String
  reasoning : Option String

/-- The rule draft assembled by `extract_rule` and completed by
`process_correction` (the `rule_data` dict). -/
structure RuleDraft where
  content : String
  category : String
  reasoning : String
  original_correction : String
  created_at : String
  embedding : Option (List ℚ)
deriving DecidableEq

/-- Function `extract_rule` (extraction.py lines 58-96): `none` when
the service
call fails, reports the input invalid, or yields a falsy (missing or
empty) rule text. -/
def extract_rule (svc : Option ExtractOut) (user_correction : String)
    (now : String) : Option RuleDraft :=
  match svc with
  | none => none
  | some result =>
    if !(result.is_valid.getD true) then none
    else
      match result.rule with
      | none => none
      | some rule_content =>
        if rule_content = "" then none
        else
          some ⟨rule_content, result.category.getD "style",
            result.reasoning.getD "", user_correction, now, none⟩

/-- Function `check_duplicate_rule` (extraction.py lines 132-153):
embed the new
content (`none` when the embedding call fails, which is swallowed and
reported as no duplicate) and scan with `find_similar_rule` at the
default threshold. -/
noncomputable def check_duplicate_rule (embedding_svc : Option (List ℚ))
    (existing_rules : List Rule) : Option Rule :=
  match embedding_svc with
  | none => none
  | some new_embedding => find_similar_rule new_embedding existing_rules none

/-- Terminal classification produced by `process_correction`. -/
structure CorrectionResult where
  status : String
  rule : Option RuleDraft
  existing_rule : Option Rule
  message : String

/-- Function `process_correction` (extraction.py lines 156-209).  The
three
`Option` arguments are the outcomes of the fallible service calls:
rule extraction, embedding for the duplicate check, and embedding for
the attach stage. -/
noncomputable def process_correction (extract_svc : Option ExtractOut)
    (dup_embedding_svc attach_embedding_svc : Option (List ℚ))
    (user_correction _previous_response now : String)
    (existing_rules : List Rule) : CorrectionResult :=
  match extract_rule extract_svc user_correction now with
  | none =>
      ⟨"extraction_failed", none, none,
        "Could not extract a clear rule from this correction"⟩
  | some rule_data =>
    match check_duplicate_rule dup_embedding_svc existing_rules with
    | some duplicate =>
        ⟨"duplicate_found", none, some duplicate,
          "This preference already exists and has been reinforced"⟩
    | none =>
        let rule_data2 := { rule_data with embedding := attach_embedding_svc }
        ⟨"rule_created", some rule_data2, none,
          "✓ Learned preference: " ++ rule_data2.content⟩

/-- C4: the pipeline always yields a classified terminal result.  When
the detection service call fails, the keyword heuristic yields
`(true, "style", 0.5)` on a match and `(false, "none", 0.0)` otherwise;
`process_correction` reports `extraction_failed` whenever the
extraction service fails, declares the input invalid, or returns no
rule text; a found duplicate short-circuits to `duplicate_found`; and
an attach-stage embedding failure is non-fatal: the result is still
`rule_created`, with the absent embedding attached as-is. -/
theorem correction_pipeline_classified (esvc : Option ExtractOut)
    (dEmb aEmb : Option (List ℚ)) (uc pr now : String)
    (existing : List Rule) :
    (hasCorrectionKeyword uc = true →
        detect_correction none uc pr = (true, "style", 1/2))
      ∧ (hasCorrectionKeyword uc = false →
          detect_correction none uc pr = (false, "none", 0))
      ∧ (extract_rule esvc uc now = none →
          (process_correction esvc dEmb aEmb uc pr now existing).status
            = "extraction_failed")
      ∧ (esvc = none
            ∨ (∃ res, esvc = some res ∧ res.is_valid = some false)
            ∨ (∃ res, esvc = some res
                ∧ (res.rule = none ∨ res.rule = some "")) →
          extract_rule esvc uc now = none)
      ∧ (∀ rd, extract_rule esvc uc now = some rd →
          ∀ dup, check_duplicate_rule dEmb existing = some dup →
            (process_correction esvc dEmb aEmb uc pr now existing).status
              = "duplicate_found"
            ∧ (process_correction esvc dEmb aEmb uc pr now
                existing).existing_rule = some dup
            ∧ (process_correction esvc dEmb aEmb uc pr now existing).rule
              = none)
      ∧ (∀ rd, extract_rule esvc uc now = some rd →
          check_duplicate_rule dEmb existing = none →
            (process_correction esvc dEmb aEmb uc pr now existing).status
              = "rule_created"
            ∧ (process_correction esvc dEmb aEmb uc pr now existing).rule
              = some { rd with embedding := aEmb })
      ∧ ((process_correction esvc dEmb aEmb uc pr now existing).status
            = "extraction_failed"
          ∨ (process_correction esvc dEmb aEmb uc pr now existing).status
            = "duplicate_found"
          ∨ (process_correction esvc dEmb aEmb uc pr now existing).status
            = "rule_created") := by
  refine ⟨?_, ?_, ?_, ?_, ?_, ?_, ?_⟩
  · intro h
    simp [detect_correction, h]
  · intro h
    simp [detect_correction, h]
  · intro h
    unfold process_correction
    rw [h]
  · intro h
    rcases h with h | ⟨res, hres, hval⟩ | ⟨res, hres, hrule⟩
    · rw [h]
      rfl
    · subst hres
      show (if !(res.is_valid.getD true) then none else _) = none
      rw [hval]
      rfl
    · subst hres
      show (if !(res.is_valid.getD true) then none else _) = none
      cases hv : res.is_valid.getD true
      · rfl
      · rcases hrule with h0 | h0 <;>
          · rw [h0]
            rfl
  · intro rd hrd dup hdup
    unfold process_correction
    rw [hrd, hdup]
    exact ⟨rfl, rfl, rfl⟩
  · intro rd hrd hdup
    unfold process_correction
    rw [hrd, hdup]
    exact ⟨rfl, rfl⟩
  · cases hE : extract_rule esvc uc now with
    | none =>
      unfold process_correction
      rw [hE]
      exact Or.inl rfl
    | some rd =>
      cases hD : check_duplicate_rule dEmb existing with
      | none =>
        unfold process_correction
        rw [hE, hD]
        exact Or.inr (Or.inr rfl)
      | some dup =>
        unfold process_correction
        rw [hE, hD]
        exact Or.inr (Or.inl rfl)

/-- C4 witness: a failed extraction call yields `extraction_failed`,
and the keyword fallback classifies "That is wrong" as a style
correction with confidence `0.5`. -/
theorem correction_pipeline_classified_witness :
    (process_correction none none none "x" "p" "t" []).status
        = "extraction_failed"
      ∧ detect_correction none "That is wrong" "p" = (true, "style", 1/2) := by
  constructor
  · exact (correction_pipeline_classified none none none "x" "p" "t" []).2.2.1
      ((correction_pipeline_classified none none none "x" "p" "t"
        []).2.2.2.1 (Or.inl rfl))
  · exact (correction_pipeline_classified none none none "That is wrong" "p"
      "t" []).1 (by decide)
